import Mathlib

/-!
Shallow embedding of the simulation core of
src/relativistic_quantum_equation.py.

The script evolves a scalar field u on an (N,N,N) grid with a leapfrog
recurrence combining a periodic-roll discrete Laplacian and a biharmonic
(double-Laplacian) term, zeroes the six boundary faces after each update,
and captures the mid-plane z-slice after every step.

Real values are modelled by the rationals; fields are total functions on
Fin N indices.
-/

/-- A dense (N,N,N) array of real values, indexed by (i,j,k). -/
abbrev Field3D (N : ℕ) := Fin N → Fin N → Fin N → ℚ

/-- A 2D (N,N) slice of a field. -/
abbrev Slice2D (N : ℕ) := Fin N → Fin N → ℚ

/-- Index map realizing numpy's roll with shift s along one axis:
entry i of the rolled array is entry (i - s) mod N of the original. -/
def rollIndex (N : ℕ) (s : ℤ) (i : Fin N) : Fin N :=
  ⟨(((i.val : ℤ) - s) % (N : ℤ)).toNat, by
    have hN : (0 : ℤ) < (N : ℤ) := Int.natCast_pos.mpr i.pos
    have h1 : (0 : ℤ) ≤ ((i.val : ℤ) - s) % (N : ℤ) := Int.emod_nonneg _ (ne_of_gt hN)
    have h2 : ((i.val : ℤ) - s) % (N : ℤ) < (N : ℤ) := Int.emod_lt_of_pos _ hN
    omega⟩

/-- np.roll(u, s, axis) on a 3D array (source lines 30-32 use
shifts 1 and -1 along axes 0, 1, 2). -/
def roll (N : ℕ) (u : Field3D N) (s : ℤ) (axis : ℕ) : Field3D N :=
  fun i j k =>
    if axis = 0 then u (rollIndex N s i) j k
    else if axis = 1 then u i (rollIndex N s j) k
    else u i j (rollIndex N s k)

/-- The laplacian helper of the source (lines 28-33): sum of the six
axis rolls minus six times the center, divided by dx squared. -/
def laplacian (N : ℕ) (dx : ℚ) (u : Field3D N) : Field3D N :=
  fun i j k =>
    (roll N u 1 0 i j k + roll N u (-1) 0 i j k +
     roll N u 1 1 i j k + roll N u (-1) 1 i j k +
     roll N u 1 2 i j k + roll N u (-1) 2 i j k - 6 * u i j k) / dx ^ 2

/-- The biharmonic helper of the source (lines 35-36): the laplacian
applied twice. -/
def biharmonic (N : ℕ) (dx : ℚ) (u : Field3D N) : Field3D N :=
  laplacian N dx (laplacian N dx u)

/-- Source line 53: zero the two faces along axis 0
(u_next[0,:,:] = u_next[-1,:,:] = 0). -/
def zeroFace0 (N : ℕ) (u : Field3D N) : Field3D N :=
  fun i j k => if i.val = 0 ∨ i.val = N - 1 then 0 else u i j k

/-- Source line 54: zero the two faces along axis 1. -/
def zeroFace1 (N : ℕ) (u : Field3D N) : Field3D N :=
  fun i j k => if j.val = 0 ∨ j.val = N - 1 then 0 else u i j k

/-- Source line 55: zero the two faces along axis 2. -/
def zeroFace2 (N : ℕ) (u : Field3D N) : Field3D N :=
  fun i j k => if k.val = 0 ∨ k.val = N - 1 then 0 else u i j k

/-- Boundary enforcement (source lines 52-55), applied in source order. -/
def applyBoundary (N : ℕ) (u : Field3D N) : Field3D N :=
  zeroFace2 N (zeroFace1 N (zeroFace0 N u))

/-- A grid point lies on one of the six boundary faces. -/
def onFace (N : ℕ) (i j k : Fin N) : Prop :=
  i.val = 0 ∨ i.val = N - 1 ∨ j.val = 0 ∨ j.val = N - 1 ∨
  k.val = 0 ∨ k.val = N - 1

instance (N : ℕ) (i j k : Fin N) : Decidable (onFace N i j k) := by
  unfold onFace; infer_instance

/-- The integrator state: current and previous field snapshots
(source variables u and u_prev). -/
structure IntegratorState (N : ℕ) where
  u : Field3D N
  u_prev : Field3D N

/-- The candidate next field of one step (source lines 45-50):
2*u - u_prev + dt^2 * laplacian(u) - dt^4 * biharmonic(u). -/
def u_next (N : ℕ) (dx dt : ℚ) (s : IntegratorState N) : Field3D N :=
  fun i j k =>
    2 * s.u i j k - s.u_prev i j k
      + dt ^ 2 * laplacian N dx s.u i j k
      - dt ^ 4 * biharmonic N dx s.u i j k

/-- One iteration of the time-stepping loop (source lines 41-59):
compute the candidate, zero the boundary faces, then move
u into u_prev and the enforced candidate into u. -/
def step (N : ℕ) (dx dt : ℚ) (s : IntegratorState N) : IntegratorState N :=
  { u := applyBoundary N (u_next N dx dt s), u_prev := s.u }

/-- Mid-plane slice capture (source lines 62-63): the cross-section at
fixed index N/2 (integer division) along axis 2. -/
def midSlice (N : ℕ) (u : Field3D N) : Slice2D N :=
  fun i j => u i j ⟨N / 2, Nat.div_lt_self i.pos (by norm_num)⟩

/-- The time-stepping loop with frame capture (source lines 40-64):
each iteration steps the integrator and appends the mid-plane slice of
the updated current field. -/
def stepFrames (N : ℕ) (dx dt : ℚ) : ℕ → IntegratorState N → List (Slice2D N)
  | 0, _ => []
  | n + 1, s =>
    let t := step N dx dt s
    midSlice N t.u :: stepFrames N dx dt n t

/-- The whole run from an initial field u0 (the script initializes
u_prev as a copy of u, source line 24): `steps` loop iterations. -/
def runFrames (N : ℕ) (dx dt : ℚ) (steps : ℕ) (u0 : Field3D N) : List (Slice2D N) :=
  stepFrames N dx dt steps { u := u0, u_prev := u0 }

/-- np.linspace(0, L, N) (source lines 15-17): N evenly spaced values
from 0 to L with step L/(N-1). -/
def linspace (L : ℚ) (N : ℕ) : List ℚ :=
  (List.range N).map (fun i : ℕ => (i : ℚ) * (L / ((N : ℚ) - 1)))

/-- The grid spacing dx = L/(N-1) (source line 14). -/
def gridDx (L : ℚ) (N : ℕ) : ℚ := L / ((N : ℚ) - 1)

/-- Wrap-around successor index: N maps back to 0. -/
def wrapSucc (N : ℕ) (i : Fin N) : Fin N :=
  ⟨(i.val + 1) % N, Nat.mod_lt _ i.pos⟩

/-- Wrap-around predecessor index: -1 maps to N-1, realized as
(i + (N-1)) mod N. -/
def wrapPred (N : ℕ) (i : Fin N) : Fin N :=
  ⟨(i.val + (N - 1)) % N, Nat.mod_lt _ i.pos⟩

/-- Total of all entries of a field. -/
def totalSum (N : ℕ) (u : Field3D N) : ℚ :=
  ∑ i : Fin N, ∑ j : Fin N, ∑ k : Fin N, u i j k

/-! ## Helper lemmas -/

lemma rollIndex_one (N : ℕ) (i : Fin N) : rollIndex N 1 i = wrapPred N i := by
  apply Fin.ext
  show (((i.val : ℤ) - 1) % (N : ℤ)).toNat = (i.val + (N - 1)) % N
  have hN : 1 ≤ N := i.pos
  have hcast : ((i.val + (N - 1) : ℕ) : ℤ) = (i.val : ℤ) - 1 + (N : ℤ) := by
    push_cast [Nat.cast_sub hN]
    ring
  have key : ((i.val : ℤ) - 1) % (N : ℤ) = (((i.val + (N - 1)) % N : ℕ) : ℤ) := by
    have hm := Int.add_mul_emod_self_left ((i.val : ℤ) - 1) (N : ℤ) 1
    rw [mul_one] at hm
    rw [Int.natCast_mod, hcast, hm]
  rw [key, Int.toNat_natCast]

lemma rollIndex_neg_one (N : ℕ) (i : Fin N) : rollIndex N (-1) i = wrapSucc N i := by
  apply Fin.ext
  show (((i.val : ℤ) - (-1)) % (N : ℤ)).toNat = (i.val + 1) % N
  have hcast : ((i.val : ℤ) - (-1)) = ((i.val + 1 : ℕ) : ℤ) := by push_cast; ring
  rw [hcast, ← Int.natCast_mod, Int.toNat_natCast]

lemma applyBoundary_apply (N : ℕ) (u : Field3D N) (i j k : Fin N) :
    applyBoundary N u i j k = if onFace N i j k then 0 else u i j k := by
  simp only [applyBoundary, zeroFace0, zeroFace1, zeroFace2, onFace]
  split_ifs <;> tauto

lemma laplacian_apply (N : ℕ) (dx : ℚ) (u : Field3D N) (i j k : Fin N) :
    laplacian N dx u i j k =
      (u (wrapPred N i) j k + u (wrapSucc N i) j k +
       u i (wrapPred N j) k + u i (wrapSucc N j) k +
       u i j (wrapPred N k) + u i j (wrapSucc N k) - 6 * u i j k) / dx ^ 2 := by
  unfold laplacian roll
  simp [rollIndex_one, rollIndex_neg_one]

/-! ## Claim theorems -/

/-- C2: at every grid point (i,j,k), the laplacian equals the sum of the
six axis-neighbor values with indices wrapped modulo N (so index -1 maps
to N-1, realized as (i + (N-1)) mod N, and index N maps to 0, realized
as (i + 1) mod N), minus six times the center value, divided by dx
squared; the wrap-around is applied at every point with no boundary
awareness inside the operator. -/
theorem laplacian_pointwise (N : ℕ) (dx : ℚ) (u : Field3D N) (i j k : Fin N) :
    laplacian N dx u i j k =
      (u ⟨(i.val + (N - 1)) % N, Nat.mod_lt _ i.pos⟩ j k +
       u ⟨(i.val + 1) % N, Nat.mod_lt _ i.pos⟩ j k +
       u i ⟨(j.val + (N - 1)) % N, Nat.mod_lt _ j.pos⟩ k +
       u i ⟨(j.val + 1) % N, Nat.mod_lt _ j.pos⟩ k +
       u i j ⟨(k.val + (N - 1)) % N, Nat.mod_lt _ k.pos⟩ +
       u i j ⟨(k.val + 1) % N, Nat.mod_lt _ k.pos⟩ - 6 * u i j k) / dx ^ 2 :=
  laplacian_apply N dx u i j k

/-- C4: the biharmonic operator is definitionally the laplacian applied
twice, with the same output shape (an (N,N,N) field) and no error
conditions. -/
theorem biharmonic_is_double_laplacian (N : ℕ) (dx : ℚ) (u : Field3D N) :
    biharmonic N dx u = laplacian N dx (laplacian N dx u) := rfl

/-- A concrete 3x3x3 field that is zero on all six boundary faces and
nonzero at the single interior point. -/
def bump3 : Field3D 3 :=
  fun i j k => if i.val = 1 ∧ j.val = 1 ∧ k.val = 1 then 1 else 0

/-- C1: one step first forms the candidate
2*current - previous + dt^2 * laplacian(current) - dt^4 * biharmonic(current)
element-wise, then zeroes the six boundary faces; afterwards the previous
snapshot equals the pre-step current and the current snapshot equals the
boundary-enforced candidate. -/
theorem step_correct (N : ℕ) (dx dt : ℚ) (s : IntegratorState N) (h : 0 < dt) :
    (step N dx dt s).u_prev = s.u ∧
    ∀ i j k, (step N dx dt s).u i j k =
      if onFace N i j k then 0
      else 2 * s.u i j k - s.u_prev i j k
             + dt ^ 2 * laplacian N dx s.u i j k
             - dt ^ 4 * biharmonic N dx s.u i j k := by
  refine ⟨rfl, fun i j k => ?_⟩
  show applyBoundary N (u_next N dx dt s) i j k = _
  rw [applyBoundary_apply]
  rfl

/-- Witness for C1 at N = 3, dx = dt = 1, from the bump3 snapshots. -/
theorem step_correct_witness :
    (0 : ℚ) < 1 ∧
    ((step 3 1 1 ⟨bump3, bump3⟩).u_prev = bump3 ∧
     ∀ i j k, (step 3 1 1 ⟨bump3, bump3⟩).u i j k =
       if onFace 3 i j k then 0
       else 2 * bump3 i j k - bump3 i j k
              + 1 ^ 2 * laplacian 3 1 bump3 i j k
              - 1 ^ 4 * biharmonic 3 1 bump3 i j k) :=
  ⟨by norm_num, step_correct 3 1 1 ⟨bump3, bump3⟩ (by norm_num)⟩

/-- C3: after boundary enforcement every value with index 0 or N-1 along
any axis is exactly 0, and consequently after any TimeIntegrator step
(from any starting snapshots, the sine-product one in particular) all six
boundary faces of the resulting current field are exactly 0. -/
theorem boundary_faces_zero (N : ℕ) (dx dt : ℚ) (u : Field3D N)
    (s : IntegratorState N) (i j k : Fin N) (h : onFace N i j k) :
    applyBoundary N u i j k = 0 ∧ (step N dx dt s).u i j k = 0 := by
  constructor
  · rw [applyBoundary_apply, if_pos h]
  · show applyBoundary N (u_next N dx dt s) i j k = 0
    rw [applyBoundary_apply, if_pos h]

/-- Witness for C3 at N = 3 and the face point (0,1,1). -/
theorem boundary_faces_zero_witness :
    onFace 3 0 1 1 ∧
    (applyBoundary 3 bump3 0 1 1 = 0 ∧ (step 3 1 1 ⟨bump3, bump3⟩).u 0 1 1 = 0) :=
  ⟨by decide, boundary_faces_zero 3 1 1 bump3 ⟨bump3, bump3⟩ 0 1 1 (by decide)⟩

/-- C7: a step with dt = 0 from a state whose previous snapshot equals its
current snapshot and whose current snapshot vanishes on the boundary faces
leaves the current field unchanged: the dt^2 and dt^4 terms vanish, the
candidate is 2*current - previous = current, and boundary enforcement does
not alter it. -/
theorem step_dt_zero_noop (N : ℕ) (dx : ℚ) (s : IntegratorState N)
    (hprev : s.u_prev = s.u)
    (hbd : ∀ i j k, onFace N i j k → s.u i j k = 0) :
    (step N dx 0 s).u = s.u := by
  funext i j k
  show applyBoundary N (u_next N dx 0 s) i j k = s.u i j k
  rw [applyBoundary_apply]
  by_cases h : onFace N i j k
  · rw [if_pos h]
    exact (hbd i j k h).symm
  · rw [if_neg h]
    simp only [u_next, hprev]
    ring

/-- Witness for C7 at N = 3 with the boundary-zero field bump3. -/
theorem step_dt_zero_noop_witness :
    (⟨bump3, bump3⟩ : IntegratorState 3).u_prev = (⟨bump3, bump3⟩ : IntegratorState 3).u ∧
    (∀ i j k, onFace 3 i j k → (⟨bump3, bump3⟩ : IntegratorState 3).u i j k = 0) ∧
    (step 3 1 0 ⟨bump3, bump3⟩).u = bump3 :=
  ⟨rfl, by decide, step_dt_zero_noop 3 1 ⟨bump3, bump3⟩ rfl (by decide)⟩

/-- Laplacian linearity, shared helper. -/
lemma laplacian_linear (N : ℕ) (dx : ℚ) (a b : ℚ) (f g : Field3D N) :
    laplacian N dx (fun i j k => a * f i j k + b * g i j k) =
      fun i j k => a * laplacian N dx f i j k + b * laplacian N dx g i j k := by
  funext i j k
  simp only [laplacian_apply]
  ring

/-- C9: laplacian and biharmonic are linear operators: each maps the
pointwise combination a*f + b*g to the same combination of its values on
f and g, exactly. -/
theorem operators_linear (N : ℕ) (dx : ℚ) (a b : ℚ) (f g : Field3D N) :
    laplacian N dx (fun i j k => a * f i j k + b * g i j k) =
      (fun i j k => a * laplacian N dx f i j k + b * laplacian N dx g i j k) ∧
    biharmonic N dx (fun i j k => a * f i j k + b * g i j k) =
      (fun i j k => a * biharmonic N dx f i j k + b * biharmonic N dx g i j k) := by
  refine ⟨laplacian_linear N dx a b f g, ?_⟩
  show laplacian N dx (laplacian N dx (fun i j k => a * f i j k + b * g i j k)) = _
  rw [laplacian_linear N dx a b f g, laplacian_linear N dx a b]
  rfl

lemma stepFrames_length (N : ℕ) (dx dt : ℚ) (n : ℕ) (s : IntegratorState N) :
    (stepFrames N dx dt n s).length = n := by
  induction n generalizing s with
  | zero => rfl
  | succ m ih => simp [stepFrames, ih]

lemma stepFrames_getElem (N : ℕ) (dx dt : ℚ) (n : ℕ) (s : IntegratorState N)
    (i : ℕ) (h : i < n) :
    (stepFrames N dx dt n s)[i]? =
      some (midSlice N ((step N dx dt)^[i + 1] s).u) := by
  induction n generalizing s i with
  | zero => omega
  | succ m ih =>
    cases i with
    | zero =>
      simp [stepFrames, Function.iterate_one]
    | succ i2 =>
      have hstep : (stepFrames N dx dt (m + 1) s)[i2 + 1]? =
          (stepFrames N dx dt m (step N dx dt s))[i2]? := by
        simp [stepFrames]
      rw [hstep, ih (step N dx dt s) i2 (by omega),
        ← Function.iterate_succ_apply (step N dx dt) (i2 + 1) s]

/-- C5: the run produces a frame sequence of length exactly steps, and for
every index i below steps the i-th frame is the 2D cross-section at fixed
index N/2 (integer division) along the slicing z axis of the current field
after the (i+1)-th step, a value that later steps cannot modify. -/
theorem run_frames_spec (N : ℕ) (dx dt : ℚ) (steps : ℕ) (u0 : Field3D N)
    (i : ℕ) (h : i < steps) :
    (runFrames N dx dt steps u0).length = steps ∧
    (runFrames N dx dt steps u0)[i]? =
      some (midSlice N ((step N dx dt)^[i + 1] ⟨u0, u0⟩).u) :=
  ⟨stepFrames_length N dx dt steps ⟨u0, u0⟩,
   stepFrames_getElem N dx dt steps ⟨u0, u0⟩ i h⟩

/-- Witness for C5 at N = 3, two steps, frame index 1. -/
theorem run_frames_spec_witness :
    1 < 2 ∧
    ((runFrames 3 1 1 2 bump3).length = 2 ∧
     (runFrames 3 1 1 2 bump3)[1]? =
       some (midSlice 3 ((step 3 1 1)^[2] ⟨bump3, bump3⟩).u)) :=
  ⟨by norm_num, run_frames_spec 3 1 1 2 bump3 1 (by norm_num)⟩

/-- C8: for L > 0 and N at least 2, the grid per axis has exactly N
coordinate values, starts at 0, ends at L, and each consecutive pair is
strictly increasing with uniform gap gridDx = L/(N-1). -/
theorem grid_spec (L : ℚ) (N : ℕ) (i : ℕ) (hL : 0 < L) (hN : 2 ≤ N)
    (hi : i + 1 < N) :
    (linspace L N).length = N ∧
    (linspace L N)[0]? = some 0 ∧
    (linspace L N)[N - 1]? = some L ∧
    ∃ a b, (linspace L N)[i]? = some a ∧ (linspace L N)[i + 1]? = some b ∧
      a < b ∧ b - a = gridDx L N := by
  have hN1 : (0 : ℚ) < (N : ℚ) - 1 := by
    have h2 : (2 : ℚ) ≤ (N : ℚ) := by exact_mod_cast hN
    linarith
  have hd : 0 < L / ((N : ℚ) - 1) := div_pos hL hN1
  have hlen : (linspace L N).length = N := by
    simp only [linspace, List.length_map, List.length_range]
  have hget : ∀ m : ℕ, m < N →
      (linspace L N)[m]? = some ((m : ℚ) * (L / ((N : ℚ) - 1))) := by
    intro m hm
    unfold linspace
    rw [List.getElem?_map, List.getElem?_range hm]
    rfl
  refine ⟨hlen, ?_, ?_, ?_⟩
  · rw [hget 0 (by omega)]
    norm_num
  · rw [hget (N - 1) (by omega)]
    have hcast : ((N - 1 : ℕ) : ℚ) = (N : ℚ) - 1 := by
      have h1 : 1 ≤ N := by omega
      push_cast [Nat.cast_sub h1]
      ring
    rw [hcast]
    congr 1
    field_simp
  · refine ⟨(i : ℚ) * (L / ((N : ℚ) - 1)), ((i : ℚ) + 1) * (L / ((N : ℚ) - 1)),
      hget i (by omega), ?_, ?_, ?_⟩
    · rw [hget (i + 1) hi]
      push_cast
      ring_nf
    · have : (i : ℚ) < (i : ℚ) + 1 := by linarith
      exact mul_lt_mul_of_pos_right this hd
    · unfold gridDx
      ring

/-- Witness for C8 at L = 1, N = 3, consecutive pair at index 0. -/
theorem grid_spec_witness :
    (0 : ℚ) < 1 ∧ 2 ≤ 3 ∧ 0 + 1 < 3 ∧
    ((linspace 1 3).length = 3 ∧
     (linspace 1 3)[0]? = some 0 ∧
     (linspace 1 3)[3 - 1]? = some 1 ∧
     ∃ a b, (linspace 1 3)[0]? = some a ∧ (linspace 1 3)[0 + 1]? = some b ∧
       a < b ∧ b - a = gridDx 1 3) :=
  ⟨by norm_num, by norm_num, by norm_num,
   grid_spec 1 3 0 (by norm_num) (by norm_num) (by norm_num)⟩

lemma rollIndex_rollIndex (N : ℕ) (s t : ℤ) (i : Fin N) :
    rollIndex N t (rollIndex N s i) = rollIndex N (s + t) i := by
  apply Fin.ext
  show ((((((i.val : ℤ) - s) % (N : ℤ)).toNat : ℤ) - t) % (N : ℤ)).toNat =
    (((i.val : ℤ) - (s + t)) % (N : ℤ)).toNat
  have hN : (0 : ℤ) < (N : ℤ) := Int.natCast_pos.mpr i.pos
  have h1 : (0 : ℤ) ≤ ((i.val : ℤ) - s) % (N : ℤ) :=
    Int.emod_nonneg _ (ne_of_gt hN)
  rw [Int.toNat_of_nonneg h1]
  congr 1
  conv_lhs => rw [Int.sub_emod]
  rw [Int.emod_emod_of_dvd _ dvd_rfl, ← Int.sub_emod]
  congr 1
  ring

lemma rollIndex_self_zero (N : ℕ) (i : Fin N) : rollIndex N 0 i = i := by
  apply Fin.ext
  show (((i.val : ℤ) - 0) % (N : ℤ)).toNat = i.val
  have h0 : (0 : ℤ) ≤ (i.val : ℤ) := Int.natCast_nonneg _
  have h1 : (i.val : ℤ) < (N : ℤ) := by exact_mod_cast i.isLt
  rw [sub_zero, Int.emod_eq_of_lt h0 h1, Int.toNat_natCast]

/-- Rolling by s is a permutation of the index set. -/
def rollEquiv (N : ℕ) (s : ℤ) : Fin N ≃ Fin N where
  toFun := rollIndex N s
  invFun := rollIndex N (-s)
  left_inv := fun i => by
    rw [rollIndex_rollIndex]
    simp [rollIndex_self_zero]
  right_inv := fun i => by
    rw [rollIndex_rollIndex]
    simp [rollIndex_self_zero]

lemma totalSum_roll (N : ℕ) (u : Field3D N) (s : ℤ) (axis : ℕ) :
    totalSum N (roll N u s axis) = totalSum N u := by
  simp only [totalSum, roll]
  split_ifs
  · exact Fintype.sum_bijective (rollIndex N s) (rollEquiv N s).bijective _ _
      (fun i => rfl)
  · refine Finset.sum_congr rfl (fun i _ => ?_)
    exact Fintype.sum_bijective (rollIndex N s) (rollEquiv N s).bijective _ _
      (fun j => rfl)
  · refine Finset.sum_congr rfl (fun i _ => ?_)
    refine Finset.sum_congr rfl (fun j _ => ?_)
    exact Fintype.sum_bijective (rollIndex N s) (rollEquiv N s).bijective _ _
      (fun k => rfl)

lemma totalSum_laplacian_expand (N : ℕ) (dx : ℚ) (u : Field3D N) :
    totalSum N (laplacian N dx u) =
      (totalSum N (roll N u 1 0) + totalSum N (roll N u (-1) 0) +
       totalSum N (roll N u 1 1) + totalSum N (roll N u (-1) 1) +
       totalSum N (roll N u 1 2) + totalSum N (roll N u (-1) 2) -
       6 * totalSum N u) / dx ^ 2 := by
  simp only [totalSum, laplacian, add_div, sub_div, Finset.sum_div,
    Finset.mul_sum, Finset.sum_add_distrib, Finset.sum_sub_distrib,
    mul_div_assoc]

/-- C10: every roll has the same total as the field itself, and hence the
sum of all entries of the laplacian of any field is exactly 0: the six
neighbor totals cancel the 6-times-center total. -/
theorem laplacian_total_zero (N : ℕ) (dx : ℚ) (u : Field3D N) :
    (∀ s : ℤ, ∀ axis : ℕ, totalSum N (roll N u s axis) = totalSum N u) ∧
    totalSum N (laplacian N dx u) = 0 := by
  refine ⟨fun s axis => totalSum_roll N u s axis, ?_⟩
  rw [totalSum_laplacian_expand, totalSum_roll, totalSum_roll, totalSum_roll,
    totalSum_roll, totalSum_roll, totalSum_roll]
  ring

/-- C6 counterexample: the script performs no configuration validation and
defines no InvalidConfig error; with the invalid setting steps = 0 the run
does not fail before the loop: it executes the loop zero times and
evaluates to the empty frame sequence. -/
theorem run_no_config_error :
    runFrames 2 1 1 0 (fun _ _ _ => 1) = [] := rfl

/-- C6 amended: the code contains no configuration validation; in
particular, for any grid size, spacing, step size and initial field, a run
with steps = 0 produces the empty frame sequence without signalling any
error. -/
theorem run_zero_steps_empty (N : ℕ) (dx dt : ℚ) (u0 : Field3D N) :
    runFrames N dx dt 0 u0 = [] := rfl
